import Mathlib

/-!
Verification of the half-rs conversion subsystem: bit-exact conversions
between IEEE 754 binary16 / bfloat16 and the 32/64-bit formats, plus the
batched conversion layer and the sealed-trait closure from `lib.rs`.

Bit patterns are modelled as `Nat` with explicit field arithmetic:
a pattern with exponent width `e` and mantissa width `m` is
`sign * 2^(e+m) + exp * 2^m + man` with `sign < 2`, `exp < 2^e`, `man < 2^m`.
The conversion engine itself (`binary16`, `bfloat` and `slice` modules) is
declared but not present under `src/`, so its operations are modelled from
the specification, as marked on each definition.
-/

namespace HalfRs

/-- Sign field of a pattern with exponent width `e` and mantissa width `m`. -/
def signField (e m x : Nat) : Nat := x / 2 ^ (e + m) % 2

/-- Exponent field of a pattern with exponent width `e` and mantissa width `m`. -/
def expField (e m x : Nat) : Nat := x / 2 ^ m % 2 ^ e

/-- Mantissa field of a pattern with mantissa width `m`. -/
def manField (m x : Nat) : Nat := x % 2 ^ m

/-- A pattern is NaN when its exponent field is all-ones and its mantissa
field is nonzero. -/
def isNaN (e m x : Nat) : Prop := expField e m x = 2 ^ e - 1 ∧ manField m x ≠ 0

instance (e m x : Nat) : Decidable (isNaN e m x) := by
  unfold isNaN; infer_instance

/-- Round-to-nearest-even: `kept` is the retained value (its low bit is the
low bit of the kept mantissa), `rem` the discarded bits, `half` the half-way
point; increment when the discarded value exceeds half-way, or equals
half-way with an odd kept value. -/
def rne (kept rem half : Nat) : Nat :=
  if half < rem ∨ (rem = half ∧ kept % 2 = 1) then kept + 1 else kept

/-- Position of the leading set bit of `n` (floor of log2), computed by
fuel-bounded structural recursion so that kernel reduction stays shallow;
correct whenever `n < 2 ^ fuel`. -/
def lbp : Nat → Nat → Nat
  | 0, _ => 0
  | f + 1, n => if n < 2 then 0 else lbp f (n / 2) + 1

/-- Modelled from the spec: magnitude part of the generic widening conversion
(§4.1 `half_to_f32` and §4.2; the `binary16`/`bfloat` conversion code is not
under `src/`). Exponent all-ones propagates with the mantissa shifted left
into the wider field; exponent all-zero is signed zero or a subnormal that is
normalized by aligning the leading set mantissa bit with the implicit-bit
position, with exponent `bD - bS - (mS - leadingBitPosition)` where the
leading bit position is counted 1-based (so `half_to_f32 0x0001` is the
pattern of `2 ^ (-24)`); otherwise rebias and shift the mantissa left. -/
def widenMag (eS mS bS eD mD bD x : Nat) : Nat :=
  if expField eS mS x = 2 ^ eS - 1 then
    (2 ^ eD - 1) * 2 ^ mD + manField mS x * 2 ^ (mD - mS)
  else if expField eS mS x = 0 then
    if manField mS x = 0 then 0
    else
      (bD - bS - (mS - (lbp mS (manField mS x) + 1))) * 2 ^ mD +
        manField mS x * 2 ^ (mD - lbp mS (manField mS x)) % 2 ^ mD
  else
    (expField eS mS x + (bD - bS)) * 2 ^ mD + manField mS x * 2 ^ (mD - mS)

/-- Modelled from the spec: generic widening conversion, sign bit carried
over unchanged above the magnitude. -/
def widen (eS mS bS eD mD bD x : Nat) : Nat :=
  signField eS mS x * 2 ^ (eD + mD) + widenMag eS mS bS eD mD bD x

/-- Modelled from the spec: magnitude part of the generic narrowing conversion
(§4.1 `f32_to_half` and §4.2; the `binary16`/`bfloat` conversion code is not
under `src/`). With rebiased exponent `dExp = exp - bS + bD` (comparisons
rearranged so all arithmetic stays in `Nat`): `dExp ≥ 2^eD - 1` overflows to
signed infinity unless the input is NaN, which propagates a nonzero truncated
mantissa (the fixed mantissa MSB when the truncation is zero); `dExp ≤ 0`
underflows: the mantissa with the implicit bit re-inserted is shifted right
by `(mS - mD + 1) - dExp` with round-to-nearest-even on the shifted-out bits,
a shift count of `mS + 1` or more (24 for a 32-bit source) producing zero;
otherwise the normal range shifts the mantissa right by `mS - mD` with
round-to-nearest-even, a carry out of the mantissa incrementing the exponent
and possibly saturating to infinity. -/
def narrowMag (eS mS bS eD mD bD x : Nat) : Nat :=
  if 2 ^ eD - 1 + bS ≤ expField eS mS x + bD then
    if expField eS mS x = 2 ^ eS - 1 ∧ manField mS x ≠ 0 then
      (2 ^ eD - 1) * 2 ^ mD +
        (if manField mS x / 2 ^ (mS - mD) = 0 then 2 ^ (mD - 1)
         else manField mS x / 2 ^ (mS - mD))
    else (2 ^ eD - 1) * 2 ^ mD
  else if expField eS mS x + bD ≤ bS then
    if mS + 1 ≤ mS - mD + 1 + (bS - (expField eS mS x + bD)) then 0
    else
      rne ((manField mS x + 2 ^ mS) / 2 ^ (mS - mD + 1 + (bS - (expField eS mS x + bD))))
        ((manField mS x + 2 ^ mS) % 2 ^ (mS - mD + 1 + (bS - (expField eS mS x + bD))))
        (2 ^ (mS - mD + (bS - (expField eS mS x + bD))))
  else
    rne ((expField eS mS x + bD - bS) * 2 ^ mD + manField mS x / 2 ^ (mS - mD))
      (manField mS x % 2 ^ (mS - mD)) (2 ^ (mS - mD - 1))

/-- Modelled from the spec: generic narrowing conversion, sign bit carried
over unchanged above the magnitude. -/
def narrow (eS mS bS eD mD bD x : Nat) : Nat :=
  signField eS mS x * 2 ^ (eD + mD) + narrowMag eS mS bS eD mD bD x

/-- Modelled from the spec: binary16 → binary32 widening (`half_to_f32`). -/
def half_to_f32 (x : Nat) : Nat := widen 5 10 15 8 23 127 x

/-- Modelled from the spec: binary16 → binary64 widening (§4.2, one step). -/
def half_to_f64 (x : Nat) : Nat := widen 5 10 15 11 52 1023 x

/-- Modelled from the spec: binary32 → binary16 narrowing (`f32_to_half`). -/
def f32_to_half (x : Nat) : Nat := narrow 8 23 127 5 10 15 x

/-- Modelled from the spec: binary64 → binary16 narrowing (§4.2, one step). -/
def f64_to_half (x : Nat) : Nat := narrow 11 52 1023 5 10 15 x

/-- Modelled from the spec: bfloat16 → binary32 is a pure left shift by 16,
exact, with no rebiasing. -/
def bf16_to_f32 (x : Nat) : Nat := x % 2 ^ 16 * 2 ^ 16

/-- Modelled from the spec: bfloat16 → binary64 widening (§4.2, one step). -/
def bf16_to_f64 (x : Nat) : Nat := widen 8 7 127 11 52 1023 x

/-- Modelled from the spec: binary32 → bfloat16 truncates the low 16 bits
with round-to-nearest-even on those bits; a NaN input instead truncates and
forces the fixed mantissa MSB when the truncated payload would otherwise be
zero, so the result always remains NaN. -/
def f32_to_bf16 (x : Nat) : Nat :=
  if isNaN 8 23 (x % 2 ^ 32) then
    if manField 7 (x % 2 ^ 32 / 2 ^ 16) = 0 then x % 2 ^ 32 / 2 ^ 16 + 2 ^ 6
    else x % 2 ^ 32 / 2 ^ 16
  else rne (x % 2 ^ 32 / 2 ^ 16) (x % 2 ^ 32 % 2 ^ 16) (2 ^ 15)

/-- Modelled from the spec: binary64 → bfloat16 narrowing (§4.2, one step). -/
def f64_to_bf16 (x : Nat) : Nat := narrow 11 52 1023 8 7 127 x

/-- Balanced-tree bounded-range checker: `ballCheck f d lo n` verifies
`f (lo + i) = true` for every `i < n`, splitting the range in halves so that
kernel reduction depth stays logarithmic in `n` (fuel `d` must exceed
`log2 n`). -/
def ballCheck (f : Nat → Bool) : Nat → Nat → Nat → Bool
  | 0, _, n => decide (n = 0)
  | d + 1, lo, n =>
    if n = 0 then true
    else if n = 1 then f lo
    else ballCheck f d lo (n / 2) && ballCheck f d (lo + n / 2) (n - n / 2)

/-- Modelled from the spec: the scalar build of `convert_many` (§4.5,
`slice.rs` is not under `src/`) applies the scalar conversion elementwise. -/
def convert_many (f : Nat → Nat) (srcs : List Nat) : List Nat := srcs.map f

/-- Modelled from the spec: the hardware-accelerated build of `convert_many`
(§4.5, `slice.rs` is not under `src/`): elements are processed in fixed-size
vector groups of width `w + 1` by the hardware group conversion `g`, and any
remainder shorter than a full group goes through the scalar path
element-by-element. -/
def convert_many_accel (g : List Nat → List Nat) (f : Nat → Nat) (w : Nat)
    (srcs : List Nat) : List Nat :=
  if h : w + 1 ≤ srcs.length then
    g (srcs.take (w + 1)) ++ convert_many_accel g f w (srcs.drop (w + 1))
  else
    srcs.map f
termination_by srcs.length
decreasing_by simp only [List.length_drop]; omega

/-- The set of types implementing the sealed trait `private::SealedHalf` of
`src/lib.rs` (lines 108–115): exactly `f16` and `bf16`, closed to extension
because the trait is crate-private. -/
inductive SealedHalfImpl where
  | f16
  | bf16

theorem two_pow_pos (k : Nat) : 0 < 2 ^ k := Nat.pos_pow_of_pos k (by norm_num)

theorem manField_lt (m x : Nat) : manField m x < 2 ^ m :=
  Nat.mod_lt _ (two_pow_pos m)

theorem expField_lt (e m x : Nat) : expField e m x < 2 ^ e :=
  Nat.mod_lt _ (two_pow_pos e)

theorem signField_lt (e m x : Nat) : signField e m x < 2 :=
  Nat.mod_lt _ (by norm_num)

theorem pow2_le_pow2 {a b : Nat} (h : a ≤ b) : (2 : Nat) ^ a ≤ 2 ^ b :=
  Nat.pow_le_pow_right (by norm_num) h

theorem pow2_lt_pow2 {a b : Nat} (h : a < b) : (2 : Nat) ^ a < 2 ^ b :=
  Nat.pow_lt_pow_right (by norm_num) h

theorem pow2_split (a b : Nat) (h : a ≤ b) :
    (2 : Nat) ^ b = 2 ^ a * 2 ^ (b - a) := by
  rw [← pow_add]
  congr 1
  omega

theorem div_pow2_lt {a k j : Nat} (h : a < 2 ^ (k + j)) : a / 2 ^ k < 2 ^ j := by
  rw [Nat.div_lt_iff_lt_mul (two_pow_pos k)]
  calc a < 2 ^ (k + j) := h
  _ = 2 ^ j * 2 ^ k := by rw [← pow_add]; congr 1; omega

theorem rne_le (kept rem half : Nat) : rne kept rem half ≤ kept + 1 := by
  unfold rne
  split <;> omega

theorem rne_of_lt {kept rem half : Nat} (h : rem < half) :
    rne kept rem half = kept := by
  unfold rne
  rw [if_neg]
  rintro (h1 | ⟨h1, h2⟩) <;> omega

theorem widenMag_lt (eS mS bS eD mD bD x : Nat) (h1 : mS ≤ mD)
    (h2 : bD < 2 ^ eD) (h3 : 2 ^ eS - 2 + (bD - bS) < 2 ^ eD) :
    widenMag eS mS bS eD mD bD x < 2 ^ (eD + mD) := by
  have hman : manField mS x < 2 ^ mS := manField_lt mS x
  have hexp : expField eS mS x < 2 ^ eS := expField_lt eS mS x
  have hshift : manField mS x * 2 ^ (mD - mS) < 2 ^ mD := by
    calc manField mS x * 2 ^ (mD - mS) < 2 ^ mS * 2 ^ (mD - mS) :=
      (Nat.mul_lt_mul_right (two_pow_pos _)).2 hman
    _ = 2 ^ mD := (pow2_split mS mD h1).symm
  have key : (2 ^ eD - 1) * 2 ^ mD + 2 ^ mD = 2 ^ (eD + mD) := by
    have hp : 2 ^ mD ≤ 2 ^ eD * 2 ^ mD :=
      Nat.le_mul_of_pos_left _ (two_pow_pos eD)
    rw [Nat.sub_mul, one_mul, pow_add]
    omega
  unfold widenMag
  split
  · omega
  · split
    · split
      · omega
      · have hq : bD - bS - (mS - (lbp mS (manField mS x) + 1)) ≤ 2 ^ eD - 1 := by omega
        have hmod : manField mS x * 2 ^ (mD - lbp mS (manField mS x)) % 2 ^ mD < 2 ^ mD :=
          Nat.mod_lt _ (two_pow_pos mD)
        have := Nat.mul_le_mul_right (2 ^ mD) hq
        omega
    · have hq : expField eS mS x + (bD - bS) ≤ 2 ^ eD - 1 := by omega
      have := Nat.mul_le_mul_right (2 ^ mD) hq
      omega

theorem narrowMag_lt (eS mS bS eD mD bD x : Nat) (h1 : mD ≤ mS)
    (h2 : 1 ≤ mD) (h3 : 1 ≤ eD) :
    narrowMag eS mS bS eD mD bD x < 2 ^ (eD + mD) := by
  have hman : manField mS x < 2 ^ mS := manField_lt mS x
  have hexp : expField eS mS x < 2 ^ eS := expField_lt eS mS x
  have key : (2 ^ eD - 1) * 2 ^ mD + 2 ^ mD = 2 ^ (eD + mD) := by
    have hp : 2 ^ mD ≤ 2 ^ eD * 2 ^ mD :=
      Nat.le_mul_of_pos_left _ (two_pow_pos eD)
    rw [Nat.sub_mul, one_mul, pow_add]
    omega
  have hdivlt : manField mS x / 2 ^ (mS - mD) < 2 ^ mD := by
    apply div_pow2_lt
    have hms : mS - mD + mD = mS := by omega
    rw [hms]
    exact hman
  unfold narrowMag
  split
  · split
    · split
      · have := pow2_lt_pow2 (show mD - 1 < mD by omega)
        omega
      · omega
    · have := two_pow_pos mD
      omega
  · split
    · split
      · exact two_pow_pos (eD + mD)
      · have hk : (manField mS x + 2 ^ mS) /
            2 ^ (mS - mD + 1 + (bS - (expField eS mS x + bD))) < 2 ^ mD := by
          apply div_pow2_lt
          calc manField mS x + 2 ^ mS < 2 ^ mS + 2 ^ mS := by omega
          _ = 2 ^ (mS + 1) := by rw [pow_succ]; omega
          _ ≤ 2 ^ (mS - mD + 1 + (bS - (expField eS mS x + bD)) + mD) :=
            pow2_le_pow2 (by omega)
        have hr := rne_le ((manField mS x + 2 ^ mS) /
            2 ^ (mS - mD + 1 + (bS - (expField eS mS x + bD))))
          ((manField mS x + 2 ^ mS) %
            2 ^ (mS - mD + 1 + (bS - (expField eS mS x + bD))))
          (2 ^ (mS - mD + (bS - (expField eS mS x + bD))))
        have h2m : (2 : Nat) ^ mD < 2 ^ (eD + mD) := pow2_lt_pow2 (by omega)
        omega
    · rename_i hov hun
      have he2 : (2 : Nat) ≤ 2 ^ eD := by
        calc (2 : Nat) = 2 ^ 1 := rfl
        _ ≤ 2 ^ eD := pow2_le_pow2 h3
      have hq : expField eS mS x + bD - bS ≤ 2 ^ eD - 2 := by omega
      have hmul := Nat.mul_le_mul_right (2 ^ mD) hq
      have key2 : (2 ^ eD - 2) * 2 ^ mD + 2 ^ mD ≤ (2 ^ eD - 1) * 2 ^ mD := by
        have h2b : 2 * 2 ^ mD ≤ 2 ^ eD * 2 ^ mD := Nat.mul_le_mul_right _ he2
        rw [Nat.sub_mul, Nat.sub_mul, one_mul]
        omega
      have hr := rne_le ((expField eS mS x + bD - bS) * 2 ^ mD +
          manField mS x / 2 ^ (mS - mD))
        (manField mS x % 2 ^ (mS - mD)) (2 ^ (mS - mD - 1))
      have hgpos : 0 < 2 ^ mD := two_pow_pos mD
      have hjnn : 0 ≤ manField mS x / 2 ^ (mS - mD) := Nat.zero_le _
      omega

theorem pow2_mul_pred (e m : Nat) :
    (2 ^ e - 1) * 2 ^ m + 2 ^ m = 2 ^ (e + m) := by
  have hp : 2 ^ m ≤ 2 ^ e * 2 ^ m := Nat.le_mul_of_pos_left _ (two_pow_pos e)
  rw [Nat.sub_mul, one_mul, pow_add]
  omega

theorem manShift_lt (mS mD x : Nat) (h1 : mS ≤ mD) :
    manField mS x * 2 ^ (mD - mS) < 2 ^ mD := by
  calc manField mS x * 2 ^ (mD - mS) < 2 ^ mS * 2 ^ (mD - mS) :=
    (Nat.mul_lt_mul_right (two_pow_pos _)).2 (manField_lt mS x)
  _ = 2 ^ mD := (pow2_split mS mD h1).symm

theorem manDiv_lt (mS mD x : Nat) (h1 : mD ≤ mS) :
    manField mS x / 2 ^ (mS - mD) < 2 ^ mD := by
  apply div_pow2_lt
  have hms : mS - mD + mD = mS := by omega
  rw [hms]
  exact manField_lt mS x

theorem signField_extract {e m s r : Nat} (hs : s < 2) (hr : r < 2 ^ (e + m)) :
    signField e m (s * 2 ^ (e + m) + r) = s := by
  unfold signField
  rw [Nat.mul_comm, Nat.mul_add_div (two_pow_pos _), Nat.div_eq_of_lt hr]
  omega

theorem expField_extract {e m s q t : Nat} (hq : q < 2 ^ e) (ht : t < 2 ^ m) :
    expField e m (s * 2 ^ (e + m) + q * 2 ^ m + t) = q := by
  unfold expField
  have key : s * 2 ^ (e + m) + q * 2 ^ m + t = 2 ^ m * (2 ^ e * s + q) + t := by
    rw [pow_add]
    ring
  rw [key, Nat.mul_add_div (two_pow_pos m), Nat.div_eq_of_lt ht, Nat.add_zero,
    Nat.mul_add_mod, Nat.mod_eq_of_lt hq]

theorem manField_extract {m a t : Nat} (ht : t < 2 ^ m) :
    manField m (a * 2 ^ m + t) = t := by
  unfold manField
  rw [Nat.mul_comm, Nat.mul_add_mod, Nat.mod_eq_of_lt ht]

theorem widenMag_inf (eS mS bS eD mD bD x : Nat)
    (hE : expField eS mS x = 2 ^ eS - 1) :
    widenMag eS mS bS eD mD bD x =
      (2 ^ eD - 1) * 2 ^ mD + manField mS x * 2 ^ (mD - mS) := by
  unfold widenMag
  rw [if_pos hE]

theorem expField_ne_top {eS mS x : Nat} (h0 : 1 ≤ eS)
    (hE : expField eS mS x = 0) : expField eS mS x ≠ 2 ^ eS - 1 := by
  have h2 : (2 : Nat) ≤ 2 ^ eS := by
    calc (2 : Nat) = 2 ^ 1 := rfl
    _ ≤ 2 ^ eS := pow2_le_pow2 h0
  omega

theorem widenMag_zero (eS mS bS eD mD bD x : Nat) (h0 : 1 ≤ eS)
    (hE : expField eS mS x = 0) (hM : manField mS x = 0) :
    widenMag eS mS bS eD mD bD x = 0 := by
  unfold widenMag
  rw [if_neg (expField_ne_top h0 hE), if_pos hE, if_pos hM]

theorem widenMag_subnormal (eS mS bS eD mD bD x : Nat) (h0 : 1 ≤ eS)
    (hE : expField eS mS x = 0) (hM : manField mS x ≠ 0) :
    widenMag eS mS bS eD mD bD x =
      (bD - bS - (mS - (lbp mS (manField mS x) + 1))) * 2 ^ mD +
        manField mS x * 2 ^ (mD - lbp mS (manField mS x)) % 2 ^ mD := by
  unfold widenMag
  rw [if_neg (expField_ne_top h0 hE), if_pos hE, if_neg hM]

theorem widenMag_normal (eS mS bS eD mD bD x : Nat)
    (hne : expField eS mS x ≠ 2 ^ eS - 1) (h0 : expField eS mS x ≠ 0) :
    widenMag eS mS bS eD mD bD x =
      (expField eS mS x + (bD - bS)) * 2 ^ mD + manField mS x * 2 ^ (mD - mS) := by
  unfold widenMag
  rw [if_neg hne, if_neg h0]

theorem narrowMag_nan (eS mS bS eD mD bD x : Nat)
    (hc : 2 ^ eD - 1 + bS ≤ expField eS mS x + bD)
    (hE : expField eS mS x = 2 ^ eS - 1) (hM : manField mS x ≠ 0) :
    narrowMag eS mS bS eD mD bD x =
      (2 ^ eD - 1) * 2 ^ mD +
        (if manField mS x / 2 ^ (mS - mD) = 0 then 2 ^ (mD - 1)
         else manField mS x / 2 ^ (mS - mD)) := by
  unfold narrowMag
  rw [if_pos hc, if_pos ⟨hE, hM⟩]

theorem narrowMag_inf (eS mS bS eD mD bD x : Nat)
    (hc : 2 ^ eD - 1 + bS ≤ expField eS mS x + bD)
    (hn : ¬(expField eS mS x = 2 ^ eS - 1 ∧ manField mS x ≠ 0)) :
    narrowMag eS mS bS eD mD bD x = (2 ^ eD - 1) * 2 ^ mD := by
  unfold narrowMag
  rw [if_pos hc, if_neg hn]

theorem narrowMag_not_overflow {eS mS bS eD bD x : Nat} (h3 : 1 ≤ eD)
    (hc2 : expField eS mS x + bD ≤ bS) :
    ¬ (2 ^ eD - 1 + bS ≤ expField eS mS x + bD) := by
  have h2 : (2 : Nat) ≤ 2 ^ eD := by
    calc (2 : Nat) = 2 ^ 1 := rfl
    _ ≤ 2 ^ eD := pow2_le_pow2 h3
  omega

theorem narrowMag_under_zero (eS mS bS eD mD bD x : Nat) (h3 : 1 ≤ eD)
    (hc2 : expField eS mS x + bD ≤ bS)
    (hsh : mS + 1 ≤ mS - mD + 1 + (bS - (expField eS mS x + bD))) :
    narrowMag eS mS bS eD mD bD x = 0 := by
  unfold narrowMag
  rw [if_neg (narrowMag_not_overflow h3 hc2), if_pos hc2, if_pos hsh]

theorem narrowMag_under_sub (eS mS bS eD mD bD x : Nat) (h3 : 1 ≤ eD)
    (hc2 : expField eS mS x + bD ≤ bS)
    (hsh : ¬ (mS + 1 ≤ mS - mD + 1 + (bS - (expField eS mS x + bD)))) :
    narrowMag eS mS bS eD mD bD x =
      rne ((manField mS x + 2 ^ mS) /
          2 ^ (mS - mD + 1 + (bS - (expField eS mS x + bD))))
        ((manField mS x + 2 ^ mS) %
          2 ^ (mS - mD + 1 + (bS - (expField eS mS x + bD))))
        (2 ^ (mS - mD + (bS - (expField eS mS x + bD)))) := by
  unfold narrowMag
  rw [if_neg (narrowMag_not_overflow h3 hc2), if_pos hc2, if_neg hsh]

theorem narrowMag_normal (eS mS bS eD mD bD x : Nat)
    (hc1 : ¬ (2 ^ eD - 1 + bS ≤ expField eS mS x + bD))
    (hc2 : ¬ (expField eS mS x + bD ≤ bS)) :
    narrowMag eS mS bS eD mD bD x =
      rne ((expField eS mS x + bD - bS) * 2 ^ mD + manField mS x / 2 ^ (mS - mD))
        (manField mS x % 2 ^ (mS - mD)) (2 ^ (mS - mD - 1)) := by
  unfold narrowMag
  rw [if_neg hc1, if_neg hc2]

theorem widen_signField (eS mS bS eD mD bD x : Nat) (h1 : mS ≤ mD)
    (h2 : bD < 2 ^ eD) (h3 : 2 ^ eS - 2 + (bD - bS) < 2 ^ eD) :
    signField eD mD (widen eS mS bS eD mD bD x) = signField eS mS x := by
  unfold widen
  exact signField_extract (signField_lt eS mS x)
    (widenMag_lt eS mS bS eD mD bD x h1 h2 h3)

theorem widen_nan (eS mS bS eD mD bD x : Nat) (h1 : mS ≤ mD)
    (hx : isNaN eS mS x) : isNaN eD mD (widen eS mS bS eD mD bD x) := by
  obtain ⟨hE, hM⟩ := hx
  unfold widen
  rw [widenMag_inf eS mS bS eD mD bD x hE]
  have hsh : manField mS x * 2 ^ (mD - mS) < 2 ^ mD := manShift_lt mS mD x h1
  have hq : 2 ^ eD - 1 < 2 ^ eD := by
    have := two_pow_pos eD
    omega
  constructor
  · rw [← Nat.add_assoc]
    exact expField_extract hq hsh
  · have key : signField eS mS x * 2 ^ (eD + mD) + (2 ^ eD - 1) * 2 ^ mD =
        (signField eS mS x * 2 ^ eD + (2 ^ eD - 1)) * 2 ^ mD := by
      rw [pow_add]
      ring
    rw [← Nat.add_assoc, key, manField_extract hsh]
    exact Nat.mul_ne_zero hM (by have := two_pow_pos (mD - mS); omega)

theorem narrow_signField (eS mS bS eD mD bD x : Nat) (h1 : mD ≤ mS)
    (h2 : 1 ≤ mD) (h3 : 1 ≤ eD) :
    signField eD mD (narrow eS mS bS eD mD bD x) = signField eS mS x := by
  unfold narrow
  exact signField_extract (signField_lt eS mS x)
    (narrowMag_lt eS mS bS eD mD bD x h1 h2 h3)

theorem narrow_nan (eS mS bS eD mD bD x : Nat) (h1 : mD ≤ mS) (h2 : 1 ≤ mD)
    (hov : 2 ^ eD - 1 + bS ≤ 2 ^ eS - 1 + bD) (hx : isNaN eS mS x) :
    isNaN eD mD (narrow eS mS bS eD mD bD x) := by
  obtain ⟨hE, hM⟩ := hx
  have hc : 2 ^ eD - 1 + bS ≤ expField eS mS x + bD := by
    rw [hE]
    omega
  unfold narrow
  rw [narrowMag_nan eS mS bS eD mD bD x hc hE hM]
  have htlt : (if manField mS x / 2 ^ (mS - mD) = 0 then 2 ^ (mD - 1)
      else manField mS x / 2 ^ (mS - mD)) < 2 ^ mD := by
    split
    · exact pow2_lt_pow2 (by omega)
    · exact manDiv_lt mS mD x h1
  have htne : (if manField mS x / 2 ^ (mS - mD) = 0 then 2 ^ (mD - 1)
      else manField mS x / 2 ^ (mS - mD)) ≠ 0 := by
    split
    · have := two_pow_pos (mD - 1)
      omega
    · assumption
  have hq : 2 ^ eD - 1 < 2 ^ eD := by
    have := two_pow_pos eD
    omega
  constructor
  · rw [← Nat.add_assoc]
    exact expField_extract hq htlt
  · have key : signField eS mS x * 2 ^ (eD + mD) + (2 ^ eD - 1) * 2 ^ mD =
        (signField eS mS x * 2 ^ eD + (2 ^ eD - 1)) * 2 ^ mD := by
      rw [pow_add]
      ring
    rw [← Nat.add_assoc, key, manField_extract htlt]
    exact htne

theorem ballCheck_sound (f : Nat → Bool) :
    ∀ d lo n, ballCheck f d lo n = true → ∀ i, i < n → f (lo + i) = true := by
  intro d
  induction d with
  | zero =>
    intro lo n h i hi
    simp [ballCheck] at h
    omega
  | succ d ih =>
    intro lo n h i hi
    rw [ballCheck] at h
    by_cases h0 : n = 0
    · omega
    · by_cases h1 : n = 1
      · simp [h0, h1] at h
        have hz : i = 0 := by omega
        simpa [hz] using h
      · simp [h0, h1, Bool.and_eq_true] at h
        by_cases hs : i < n / 2
        · exact ih lo (n / 2) h.1 i hs
        · have h2 := ih (lo + n / 2) (n - n / 2) h.2 (i - n / 2) (by omega)
          have hi2 : lo + n / 2 + (i - n / 2) = lo + i := by omega
          rwa [hi2] at h2

theorem bf16_to_f32_signField (x : Nat) :
    signField 8 23 (bf16_to_f32 x) = signField 8 7 x := by
  unfold bf16_to_f32 signField
  norm_num
  omega

theorem bf16_to_f32_nan (x : Nat) (hx : isNaN 8 7 x) :
    isNaN 8 23 (bf16_to_f32 x) := by
  obtain ⟨hE, hM⟩ := hx
  unfold expField at hE
  unfold manField at hM
  unfold bf16_to_f32 isNaN expField manField
  norm_num at hE hM ⊢
  constructor <;> omega

theorem f32_to_bf16_signField (x : Nat) (hx : x < 2 ^ 32) :
    signField 8 7 (f32_to_bf16 x) = signField 8 23 x := by
  unfold f32_to_bf16 rne
  split
  · rename_i hnan
    obtain ⟨hE, hM⟩ := hnan
    unfold expField at hE
    unfold manField at hM
    unfold signField manField
    split <;> omega
  · rename_i hnan
    rw [isNaN] at hnan
    unfold expField manField at hnan
    unfold signField
    split <;> omega

theorem f32_to_bf16_nan (x : Nat) (hx : x < 2 ^ 32) (hn : isNaN 8 23 x) :
    isNaN 8 7 (f32_to_bf16 x) := by
  have hxx : x % 2 ^ 32 = x := Nat.mod_eq_of_lt hx
  unfold f32_to_bf16
  rw [hxx, if_pos hn]
  obtain ⟨hE, hM⟩ := hn
  unfold expField at hE
  unfold manField at hM
  unfold isNaN expField manField
  split <;> constructor <;> omega

theorem field_bound {e m q t : Nat} (hq : q < 2 ^ e) (ht : t < 2 ^ m) :
    q * 2 ^ m + t < 2 ^ (e + m) := by
  have h1 : q * 2 ^ m ≤ (2 ^ e - 1) * 2 ^ m :=
    Nat.mul_le_mul_right _ (by omega)
  have h2 := pow2_mul_pred e m
  omega

theorem convert_many_accel_eq (g : List Nat → List Nat) (f : Nat → Nat) (w : Nat)
    (hg : ∀ grp : List Nat, grp.length = w + 1 → g grp = grp.map f) :
    ∀ srcs : List Nat, convert_many_accel g f w srcs = srcs.map f := by
  have main : ∀ n (srcs : List Nat), srcs.length ≤ n →
      convert_many_accel g f w srcs = srcs.map f := by
    intro n
    induction n with
    | zero =>
      intro srcs hlen
      rw [convert_many_accel, dif_neg (by omega)]
    | succ n ih =>
      intro srcs hlen
      rw [convert_many_accel]
      by_cases hc : w + 1 ≤ srcs.length
      · rw [dif_pos hc, hg (srcs.take (w + 1)) (by simp [List.length_take]; omega),
          ih (srcs.drop (w + 1)) (by simp [List.length_drop]; omega),
          ← List.map_append, List.take_append_drop]
      · rw [dif_neg hc]
  exact fun srcs => main srcs.length srcs le_rfl

/-- C10: the set of half-precision-like types is closed with exactly two
members — the sealed trait `SealedHalf` is implemented for `f16` and `bf16`
and for no other type, so no third 16-bit encoding can be added from outside
the crate. -/
theorem claim10_sealed_half_closed :
    (∀ t : SealedHalfImpl, t = SealedHalfImpl.f16 ∨ t = SealedHalfImpl.bf16) ∧
      (SealedHalfImpl.f16 = SealedHalfImpl.bf16) = False := by
  constructor
  · intro t
    cases t
    · exact Or.inl rfl
    · exact Or.inr rfl
  · exact eq_false fun h => SealedHalfImpl.noConfusion h

/-- C9: `convert_many` produces a buffer of the same length as its input
with every element the scalar conversion of the corresponding input element,
and the hardware-accelerated build (vector groups of width `w + 1` through a
group conversion `g` that is bit-identical to the scalar engine on full
groups, scalar remainder) computes exactly the same buffer. -/
theorem claim9_convert_many (f : Nat → Nat) (g : List Nat → List Nat) (w : Nat)
    (srcs : List Nat)
    (hg : ∀ grp : List Nat, grp.length = w + 1 → g grp = grp.map f) :
    (convert_many f srcs).length = srcs.length ∧
      (∀ i, i < srcs.length →
        (convert_many f srcs).get? i = Option.map f (srcs.get? i)) ∧
      convert_many_accel g f w srcs = convert_many f srcs := by
  refine ⟨?_, ?_, ?_⟩
  · unfold convert_many
    simp
  · intro i hi
    unfold convert_many
    simp [List.get?_map]
  · rw [convert_many_accel_eq g f w hg srcs]
    rfl

theorem claim9_convert_many_witness :
    (convert_many f32_to_half [1065353216, 2147483648]).get? 0 =
      Option.map f32_to_half
        (([1065353216, 2147483648] : List Nat).get? 0) ∧
      convert_many_accel (fun grp => grp.map f32_to_half) f32_to_half 0
          [1065353216, 2147483648] =
        convert_many f32_to_half [1065353216, 2147483648] :=
  ⟨(claim9_convert_many f32_to_half (fun grp => grp.map f32_to_half) 0
      [1065353216, 2147483648] (fun _ _ => rfl)).2.1 0 (by norm_num),
   (claim9_convert_many f32_to_half (fun grp => grp.map f32_to_half) 0
      [1065353216, 2147483648] (fun _ _ => rfl)).2.2⟩

/-- C2: every 16-bit bfloat16 pattern, including every NaN payload, is
returned unchanged by widening with `bf16_to_f32` and narrowing the result
with `f32_to_bf16`. -/
theorem claim2_bf16_roundtrip :
    ∀ b : Fin 65536, f32_to_bf16 (bf16_to_f32 b.val) = b.val := by
  intro b
  have hb : b.val < 65536 := b.isLt
  unfold bf16_to_f32 f32_to_bf16
  by_cases hn : isNaN 8 23 (b.val % 2 ^ 16 * 2 ^ 16 % 2 ^ 32)
  · rw [if_pos hn]
    obtain ⟨hE, hM⟩ := hn
    unfold expField at hE
    unfold manField at hM
    unfold manField
    split <;> omega
  · rw [if_neg hn]
    unfold rne
    split
    · rename_i hc
      exfalso
      omega
    · omega

/-- C8: `bf16_to_f32` is exactly the 16-bit pattern shifted left by 16 with
no rebiasing, and `f32_to_bf16` truncates the low 16 bits with
round-to-nearest-even on those bits, except that a NaN input keeps its
truncation and is forced to a fixed nonzero mantissa bit when the truncated
payload would otherwise be zero, so the result is still NaN. -/
theorem claim8_bf16_conversions :
    (∀ b : Fin 65536, bf16_to_f32 b.val = b.val <<< 16) ∧
      (∀ x : Fin (2 ^ 32), ¬ isNaN 8 23 x.val →
        f32_to_bf16 x.val =
          x.val / 2 ^ 16 +
            (if 2 ^ 15 < x.val % 2 ^ 16 ∨
                (x.val % 2 ^ 16 = 2 ^ 15 ∧ x.val / 2 ^ 16 % 2 = 1)
              then 1 else 0)) ∧
      (∀ x : Fin (2 ^ 32), isNaN 8 23 x.val →
        isNaN 8 7 (f32_to_bf16 x.val) ∧
          (manField 7 (x.val / 2 ^ 16) ≠ 0 →
            f32_to_bf16 x.val = x.val / 2 ^ 16) ∧
          (manField 7 (x.val / 2 ^ 16) = 0 →
            f32_to_bf16 x.val = x.val / 2 ^ 16 + 2 ^ 6)) := by
  refine ⟨?_, ?_, ?_⟩
  · intro b
    have hb := b.isLt
    rw [Nat.shiftLeft_eq]
    unfold bf16_to_f32
    omega
  · intro x hn
    have hx := x.isLt
    have hxx : x.val % 2 ^ 32 = x.val := Nat.mod_eq_of_lt hx
    unfold f32_to_bf16
    rw [hxx, if_neg hn]
    unfold rne
    split
    · rfl
    · omega
  · intro x hn
    have hx := x.isLt
    have hxx : x.val % 2 ^ 32 = x.val := Nat.mod_eq_of_lt hx
    refine ⟨f32_to_bf16_nan x.val hx hn, ?_, ?_⟩
    · intro hm
      unfold f32_to_bf16
      rw [hxx, if_pos hn, if_neg hm]
    · intro hm
      unfold f32_to_bf16
      rw [hxx, if_pos hn, if_pos hm]

theorem claim8_bf16_conversions_witness :
    f32_to_bf16 1078530011 =
      1078530011 / 2 ^ 16 +
        (if 2 ^ 15 < 1078530011 % 2 ^ 16 ∨
            (1078530011 % 2 ^ 16 = 2 ^ 15 ∧ 1078530011 / 2 ^ 16 % 2 = 1)
          then 1 else 0) :=
  claim8_bf16_conversions.2.1 ⟨1078530011, by norm_num⟩ (by decide)

/-- C7: every conversion in every direction preserves the sign bit, and maps
NaN inputs to NaN outputs whose exponent field is all-ones and whose mantissa
field is nonzero; in particular `f32_to_half` does so for every 32-bit NaN
pattern. -/
theorem claim7_sign_nan_preserved :
    (∀ b : Fin 65536,
      signField 8 23 (half_to_f32 b.val) = signField 5 10 b.val ∧
      signField 11 52 (half_to_f64 b.val) = signField 5 10 b.val ∧
      signField 8 23 (bf16_to_f32 b.val) = signField 8 7 b.val ∧
      signField 11 52 (bf16_to_f64 b.val) = signField 8 7 b.val ∧
      (isNaN 5 10 b.val → isNaN 8 23 (half_to_f32 b.val)) ∧
      (isNaN 5 10 b.val → isNaN 11 52 (half_to_f64 b.val)) ∧
      (isNaN 8 7 b.val → isNaN 8 23 (bf16_to_f32 b.val)) ∧
      (isNaN 8 7 b.val → isNaN 11 52 (bf16_to_f64 b.val))) ∧
    (∀ x : Fin (2 ^ 32),
      signField 5 10 (f32_to_half x.val) = signField 8 23 x.val ∧
      signField 8 7 (f32_to_bf16 x.val) = signField 8 23 x.val ∧
      (isNaN 8 23 x.val → isNaN 5 10 (f32_to_half x.val)) ∧
      (isNaN 8 23 x.val → isNaN 8 7 (f32_to_bf16 x.val))) ∧
    (∀ y : Fin (2 ^ 64),
      signField 5 10 (f64_to_half y.val) = signField 11 52 y.val ∧
      signField 8 7 (f64_to_bf16 y.val) = signField 11 52 y.val ∧
      (isNaN 11 52 y.val → isNaN 5 10 (f64_to_half y.val)) ∧
      (isNaN 11 52 y.val → isNaN 8 7 (f64_to_bf16 y.val))) := by
  refine ⟨fun b => ⟨?_, ?_, ?_, ?_, ?_, ?_, ?_, ?_⟩,
    fun x => ⟨?_, ?_, ?_, ?_⟩, fun y => ⟨?_, ?_, ?_, ?_⟩⟩
  · exact widen_signField 5 10 15 8 23 127 b.val (by norm_num) (by norm_num)
      (by norm_num)
  · exact widen_signField 5 10 15 11 52 1023 b.val (by norm_num) (by norm_num)
      (by norm_num)
  · exact bf16_to_f32_signField b.val
  · exact widen_signField 8 7 127 11 52 1023 b.val (by norm_num) (by norm_num)
      (by norm_num)
  · exact fun hn => widen_nan 5 10 15 8 23 127 b.val (by norm_num) hn
  · exact fun hn => widen_nan 5 10 15 11 52 1023 b.val (by norm_num) hn
  · exact fun hn => bf16_to_f32_nan b.val hn
  · exact fun hn => widen_nan 8 7 127 11 52 1023 b.val (by norm_num) hn
  · exact narrow_signField 8 23 127 5 10 15 x.val (by norm_num) (by norm_num)
      (by norm_num)
  · exact f32_to_bf16_signField x.val x.isLt
  · exact fun hn => narrow_nan 8 23 127 5 10 15 x.val (by norm_num)
      (by norm_num) (by norm_num) hn
  · exact fun hn => f32_to_bf16_nan x.val x.isLt hn
  · exact narrow_signField 11 52 1023 5 10 15 y.val (by norm_num) (by norm_num)
      (by norm_num)
  · exact narrow_signField 11 52 1023 8 7 127 y.val (by norm_num) (by norm_num)
      (by norm_num)
  · exact fun hn => narrow_nan 11 52 1023 5 10 15 y.val (by norm_num)
      (by norm_num) (by norm_num) hn
  · exact fun hn => narrow_nan 11 52 1023 8 7 127 y.val (by norm_num)
      (by norm_num) (by norm_num) hn

theorem claim7_sign_nan_preserved_witness :
    isNaN 5 10 (f32_to_half 4290772993) :=
  (claim7_sign_nan_preserved.2.1 ⟨4290772993, by norm_num⟩).2.2.1 (by decide)

/-- C3: every 32-bit input to `f32_to_half` whose unbiased half exponent
(old exponent − 127 + 15) is at least 31 overflows to signed infinity
(exponent field all-ones, mantissa 0) unless it is NaN, in which case the
result carries a nonzero truncated mantissa; and converting the 32-bit
pattern of 65520.0 yields 0x7C00. -/
theorem claim3_overflow :
    (∀ x : Fin (2 ^ 32),
      (31 : Int) ≤ (expField 8 23 x.val : Int) - 127 + 15 →
      (¬ isNaN 8 23 x.val →
        f32_to_half x.val = signField 8 23 x.val * 2 ^ 15 + 31 * 2 ^ 10) ∧
      (isNaN 8 23 x.val →
        expField 5 10 (f32_to_half x.val) = 31 ∧
        manField 10 (f32_to_half x.val) ≠ 0)) ∧
    f32_to_half 0x477FF000 = 0x7C00 := by
  refine ⟨fun x h => ⟨?_, ?_⟩, by decide!⟩
  · intro hn
    have hc : 2 ^ 5 - 1 + 127 ≤ expField 8 23 x.val + 15 := by omega
    unfold f32_to_half narrow
    rw [narrowMag_inf 8 23 127 5 10 15 x.val hc (by rw [isNaN] at hn; exact hn)]
    norm_num
  · intro hn
    have hres := narrow_nan 8 23 127 5 10 15 x.val (by norm_num) (by norm_num)
      (by norm_num) hn
    obtain ⟨h1, h2⟩ := hres
    refine ⟨?_, h2⟩
    rw [show (31 : Nat) = 2 ^ 5 - 1 by norm_num]
    exact h1

theorem claim3_overflow_witness :
    f32_to_half 4286578688 = signField 8 23 4286578688 * 2 ^ 15 + 31 * 2 ^ 10 :=
  (claim3_overflow.1 ⟨4286578688, by norm_num⟩ (by decide)).1 (by decide)

/-- C4: every 32-bit input to `f32_to_half` in the normal binary16 range
(unbiased half exponent between 1 and 30) has its mantissa shifted right by
13 with round-to-nearest-even on the 13 discarded bits — the kept mantissa
is incremented when the discarded value exceeds half-way, or equals half-way
with an odd kept mantissa — and a carry out of the 10-bit mantissa field
flows into the exponent (saturating to infinity at the top); and
`f32_to_half 0x3F800000 = 0x3C00`. -/
theorem claim4_normal_rounding :
    (∀ x : Fin (2 ^ 32),
      (1 : Int) ≤ (expField 8 23 x.val : Int) - 127 + 15 →
      (expField 8 23 x.val : Int) - 127 + 15 ≤ 30 →
      f32_to_half x.val =
        signField 8 23 x.val * 2 ^ 15 +
          ((expField 8 23 x.val - 112) * 2 ^ 10 + manField 23 x.val / 2 ^ 13 +
            (if 2 ^ 12 < manField 23 x.val % 2 ^ 13 ∨
                (manField 23 x.val % 2 ^ 13 = 2 ^ 12 ∧
                  manField 23 x.val / 2 ^ 13 % 2 = 1)
              then 1 else 0))) ∧
    f32_to_half 0x3F800000 = 0x3C00 := by
  refine ⟨fun x h1 h2 => ?_, by decide!⟩
  have hc1 : ¬ (2 ^ 5 - 1 + 127 ≤ expField 8 23 x.val + 15) := by omega
  have hc2 : ¬ (expField 8 23 x.val + 15 ≤ 127) := by omega
  unfold f32_to_half narrow
  rw [narrowMag_normal 8 23 127 5 10 15 x.val hc1 hc2]
  unfold rne
  norm_num
  split_ifs <;> omega

theorem claim4_normal_rounding_witness :
    f32_to_half 1199566848 =
      signField 8 23 1199566848 * 2 ^ 15 +
        ((expField 8 23 1199566848 - 112) * 2 ^ 10 +
          manField 23 1199566848 / 2 ^ 13 +
          (if 2 ^ 12 < manField 23 1199566848 % 2 ^ 13 ∨
              (manField 23 1199566848 % 2 ^ 13 = 2 ^ 12 ∧
                manField 23 1199566848 / 2 ^ 13 % 2 = 1)
            then 1 else 0)) :=
  claim4_normal_rounding.1 ⟨1199566848, by norm_num⟩ (by decide) (by decide)

/-- C5: every 32-bit input to `f32_to_half` with unbiased half exponent ≤ 0
takes the underflow path: the mantissa with the implicit leading bit
re-inserted is shifted right by the required count (`126 - exponent field`)
with round-to-nearest-even on the shifted-out bits, and a shift count of 24
or more produces signed zero; and `f32_to_half 0x80000000 = 0x8000`. -/
theorem claim5_underflow :
    (∀ x : Fin (2 ^ 32),
      (expField 8 23 x.val : Int) - 127 + 15 ≤ 0 →
      (24 ≤ 126 - expField 8 23 x.val →
        f32_to_half x.val = signField 8 23 x.val * 2 ^ 15) ∧
      (126 - expField 8 23 x.val < 24 →
        f32_to_half x.val =
          signField 8 23 x.val * 2 ^ 15 +
            rne ((manField 23 x.val + 2 ^ 23) /
                2 ^ (126 - expField 8 23 x.val))
              ((manField 23 x.val + 2 ^ 23) %
                2 ^ (126 - expField 8 23 x.val))
              (2 ^ (126 - expField 8 23 x.val - 1)))) ∧
    f32_to_half 0x80000000 = 0x8000 := by
  refine ⟨fun x h => ⟨?_, ?_⟩, by decide!⟩
  · intro hsh
    have hc2 : expField 8 23 x.val + 15 ≤ 127 := by omega
    unfold f32_to_half narrow
    rw [narrowMag_under_zero 8 23 127 5 10 15 x.val (by norm_num) hc2
      (by omega)]
    norm_num
  · intro hsh
    have hc2 : expField 8 23 x.val + 15 ≤ 127 := by omega
    unfold f32_to_half narrow
    rw [narrowMag_under_sub 8 23 127 5 10 15 x.val (by norm_num) hc2
      (by omega)]
    have hs1 : 23 - 10 + 1 + (127 - (expField 8 23 x.val + 15)) =
        126 - expField 8 23 x.val := by omega
    have hs2 : 23 - 10 + (127 - (expField 8 23 x.val + 15)) =
        126 - expField 8 23 x.val - 1 := by omega
    rw [hs1, hs2]

theorem claim5_underflow_witness :
    f32_to_half 2147483648 = signField 8 23 2147483648 * 2 ^ 15 :=
  (claim5_underflow.1 ⟨2147483648, by norm_num⟩ (by decide)).1 (by decide)

theorem sweep_f16_low :
    ballCheck (fun v => f32_to_half (half_to_f32 v) == v) 11 0 1024 = true := by
  decide!

theorem sweep_f16_high :
    ballCheck (fun v => f32_to_half (half_to_f32 v) == v) 11 32768 1024 = true := by
  decide!

theorem roundtrip_normal (s e m : Nat) (hs : s < 2) (he1 : 1 ≤ e) (he2 : e ≤ 30)
    (hm : m < 1024) :
    f32_to_half (half_to_f32 (s * 2 ^ 15 + e * 2 ^ 10 + m)) =
      s * 2 ^ 15 + e * 2 ^ 10 + m := by
  have hE : expField 5 10 (s * 2 ^ 15 + e * 2 ^ 10 + m) = e := by
    unfold expField
    omega
  have hwiden : half_to_f32 (s * 2 ^ 15 + e * 2 ^ 10 + m) =
      s * 2 ^ 31 + (e + 112) * 2 ^ 23 + m * 2 ^ 13 := by
    unfold half_to_f32 widen
    rw [widenMag_normal 5 10 15 8 23 127 _ (by rw [hE]; omega) (by rw [hE]; omega)]
    unfold signField manField expField
    omega
  rw [hwiden]
  have hE2 : expField 8 23 (s * 2 ^ 31 + (e + 112) * 2 ^ 23 + m * 2 ^ 13) =
      e + 112 := by
    unfold expField
    omega
  have hM2 : manField 23 (s * 2 ^ 31 + (e + 112) * 2 ^ 23 + m * 2 ^ 13) =
      m * 2 ^ 13 := by
    unfold manField
    omega
  have hS2 : signField 8 23 (s * 2 ^ 31 + (e + 112) * 2 ^ 23 + m * 2 ^ 13) = s := by
    unfold signField
    omega
  unfold f32_to_half narrow
  rw [narrowMag_normal 8 23 127 5 10 15 _ (by rw [hE2]; omega) (by rw [hE2]; omega)]
  rw [hS2, hE2, hM2, rne_of_lt (by omega)]
  omega

theorem roundtrip_top (s m : Nat) (hs : s < 2) (hm : m < 1024) :
    f32_to_half (half_to_f32 (s * 2 ^ 15 + 31 * 2 ^ 10 + m)) =
      s * 2 ^ 15 + 31 * 2 ^ 10 + m := by
  have hE : expField 5 10 (s * 2 ^ 15 + 31 * 2 ^ 10 + m) = 2 ^ 5 - 1 := by
    unfold expField
    omega
  have hwiden : half_to_f32 (s * 2 ^ 15 + 31 * 2 ^ 10 + m) =
      s * 2 ^ 31 + 255 * 2 ^ 23 + m * 2 ^ 13 := by
    unfold half_to_f32 widen
    rw [widenMag_inf 5 10 15 8 23 127 _ hE]
    unfold signField manField
    omega
  rw [hwiden]
  have hE2 : expField 8 23 (s * 2 ^ 31 + 255 * 2 ^ 23 + m * 2 ^ 13) = 255 := by
    unfold expField
    omega
  have hM2 : manField 23 (s * 2 ^ 31 + 255 * 2 ^ 23 + m * 2 ^ 13) = m * 2 ^ 13 := by
    unfold manField
    omega
  have hS2 : signField 8 23 (s * 2 ^ 31 + 255 * 2 ^ 23 + m * 2 ^ 13) = s := by
    unfold signField
    omega
  by_cases hm0 : m = 0
  · subst hm0
    unfold f32_to_half narrow
    rw [narrowMag_inf 8 23 127 5 10 15 _ (by rw [hE2]; omega)
      (by intro hcon; exact hcon.2 (by rw [hM2]; omega))]
    rw [hS2]
    omega
  · unfold f32_to_half narrow
    rw [narrowMag_nan 8 23 127 5 10 15 _ (by rw [hE2]; omega) (by rw [hE2]; omega)
      (by rw [hM2]; exact Nat.mul_ne_zero hm0 (by norm_num))]
    rw [hS2, hM2, if_neg (by omega)]
    omega

/-- C1: every 16-bit binary16 pattern is returned unchanged by widening with
`half_to_f32` and narrowing the result with `f32_to_half`. -/
theorem claim1_half_f32_roundtrip :
    ∀ b : Fin 65536, f32_to_half (half_to_f32 b.val) = b.val := by
  intro b
  have hb : b.val < 65536 := b.isLt
  by_cases he0 : expField 5 10 b.val = 0
  · unfold expField at he0
    by_cases hside : b.val < 32768
    · have h1 := ballCheck_sound (fun v => f32_to_half (half_to_f32 v) == v)
        11 0 1024 sweep_f16_low b.val (by omega)
      simpa using h1
    · have h1 := ballCheck_sound (fun v => f32_to_half (half_to_f32 v) == v)
        11 32768 1024 sweep_f16_high (b.val - 32768) (by omega)
      have he : 32768 + (b.val - 32768) = b.val := by omega
      rw [he] at h1
      simpa using h1
  · by_cases he31 : expField 5 10 b.val = 31
    · obtain ⟨s, m, hs, hm, hsplit⟩ : ∃ s m, s < 2 ∧ m < 1024 ∧
          b.val = s * 2 ^ 15 + 31 * 2 ^ 10 + m := by
        unfold expField at he31
        exact ⟨b.val / 2 ^ 15, b.val % 2 ^ 10, by omega, by omega, by omega⟩
      rw [hsplit]
      exact roundtrip_top s m hs hm
    · obtain ⟨s, e, m, hs, he1, he2, hm, hsplit⟩ : ∃ s e m, s < 2 ∧ 1 ≤ e ∧
          e ≤ 30 ∧ m < 1024 ∧ b.val = s * 2 ^ 15 + e * 2 ^ 10 + m := by
        unfold expField at he0 he31
        exact ⟨b.val / 2 ^ 15, b.val / 2 ^ 10 % 2 ^ 5, b.val % 2 ^ 10,
          by omega, by omega, by omega, by omega, by omega⟩
      rw [hsplit]
      exact roundtrip_normal s e m hs he1 he2 hm

/-- C6: every binary16 pattern with exponent field all-zero decodes through
`half_to_f32` to signed zero when the mantissa is 0, and otherwise to the
normalized value whose sign is preserved, whose exponent field equals
`127 - 15 - (10 - leadingBitPosition)` (leading bit position counted
1-based), and whose mantissa is the subnormal mantissa shifted left until
its leading set bit reaches the implicit-bit position; in particular
`half_to_f32 0x0001` is the 32-bit pattern of `2 ^ (-24)`. -/
theorem claim6_subnormal_decode :
    (∀ b : Fin 65536, expField 5 10 b.val = 0 →
      (manField 10 b.val = 0 →
        half_to_f32 b.val = signField 5 10 b.val * 2 ^ 31) ∧
      (manField 10 b.val ≠ 0 →
        signField 8 23 (half_to_f32 b.val) = signField 5 10 b.val ∧
        expField 8 23 (half_to_f32 b.val) =
          127 - 15 - (10 - (lbp 10 (manField 10 b.val) + 1)) ∧
        manField 23 (half_to_f32 b.val) =
          manField 10 b.val * 2 ^ (23 - lbp 10 (manField 10 b.val)) % 2 ^ 23)) ∧
    half_to_f32 0x0001 = 0x33800000 := by
  refine ⟨fun b he => ⟨?_, ?_⟩, by decide!⟩
  · intro hm
    unfold half_to_f32 widen
    rw [widenMag_zero 5 10 15 8 23 127 b.val (by norm_num) he hm]
    norm_num
  · intro hm
    unfold half_to_f32 widen
    rw [widenMag_subnormal 5 10 15 8 23 127 b.val (by norm_num) he hm]
    have hq : 127 - 15 - (10 - (lbp 10 (manField 10 b.val) + 1)) < 2 ^ 8 := by
      omega
    have ht : manField 10 b.val * 2 ^ (23 - lbp 10 (manField 10 b.val)) %
        2 ^ 23 < 2 ^ 23 := Nat.mod_lt _ (by norm_num)
    refine ⟨?_, ?_, ?_⟩
    · exact signField_extract (signField_lt 5 10 b.val) (field_bound hq ht)
    · rw [← Nat.add_assoc]
      exact expField_extract hq ht
    · rw [← Nat.add_assoc]
      have key : signField 5 10 b.val * 2 ^ (8 + 23) +
          (127 - 15 - (10 - (lbp 10 (manField 10 b.val) + 1))) * 2 ^ 23 =
          (signField 5 10 b.val * 2 ^ 8 +
            (127 - 15 - (10 - (lbp 10 (manField 10 b.val) + 1)))) * 2 ^ 23 := by
        rw [pow_add]
        ring
      rw [key, manField_extract ht]

theorem claim6_subnormal_decode_witness :
    expField 8 23 (half_to_f32 1) =
      127 - 15 - (10 - (lbp 10 (manField 10 1) + 1)) :=
  ((claim6_subnormal_decode.1 ⟨1, by norm_num⟩ (by decide)).2 (by decide)).2.1

end HalfRs
